import Mathlib

/-!
Verification of the sentence-simplifier (`compressor.py`).

The program is embedded shallowly: Python strings become `String`
(lists of characters), the rule tables become concrete Lean lists in
source order, and every `re.sub(rf"\b{pat}\b", repl, s, re.IGNORECASE)`
call is modelled by `reSub` below.

Modelling notes (ASCII model):
* Python's `str.lower` / `str.capitalize` are modelled with the core
  ASCII `Char.toLower` / `Char.toUpper`.
* `\w` (a word character) is modelled by `isWordChar`: ASCII letter,
  digit, or underscore.  `str.isspace` is modelled by `isWS`.
* Every pattern that the program feeds to `re.sub`/`re.split`/`re.findall`
  is a word-boundary-delimited alternation of literal phrases, where a
  phrase is a sequence of word-characters and single spaces.  For such a
  pattern, a match of `\b phrase \b` must begin at the start of a maximal
  word-character run and every word of the phrase must cover a whole
  maximal run (the surrounding `\b` and the literal separator characters
  force this).  Hence regex substitution is modelled by decomposing the
  subject into maximal same-class chunks (`chunks`) and scanning those
  chunks left to right (`scGo`), which is extensionally the leftmost,
  non-overlapping behaviour of `re.sub` on these patterns.
-/

set_option maxRecDepth 100000

namespace LLMTC

/-- `\w` of the Python `re` module (ASCII model): letter, digit or `_`. -/
def isWordChar (c : Char) : Bool :=
  (65 ≤ c.toNat && c.toNat ≤ 90) || (97 ≤ c.toNat && c.toNat ≤ 122) ||
  (48 ≤ c.toNat && c.toNat ≤ 57) || (c.toNat == 95)

/-- Python `str.isspace` (ASCII model). -/
def isWS (c : Char) : Bool :=
  c == ' ' || c == '\t' || c == '\n' || c == '\r'

theorem char_toNat_ofNat_valid (n : Nat) (h : n < 55296) :
    (Char.ofNat n).toNat = n := by
  have hv : n.isValidChar := Or.inl h
  rw [Char.ofNat, dif_pos hv]
  simp [Char.ofNatAux, Char.toNat, UInt32.toNat]

theorem toLower_toNat_of_upper (c : Char) (h1 : 65 ≤ c.toNat) (h2 : c.toNat ≤ 90) :
    (Char.toLower c).toNat = c.toNat + 32 := by
  rw [Char.toLower, if_pos ⟨h1, h2⟩]
  exact char_toNat_ofNat_valid _ (by omega)

theorem toLower_eq_self_of_not_upper (c : Char) (h : ¬ (65 ≤ c.toNat ∧ c.toNat ≤ 90)) :
    Char.toLower c = c := by
  rw [Char.toLower, if_neg h]

theorem isWordChar_toLower (c : Char) : isWordChar (Char.toLower c) = isWordChar c := by
  by_cases h : 65 ≤ c.toNat ∧ c.toNat ≤ 90
  · have ht := toLower_toNat_of_upper c h.1 h.2
    have h1 := h.1; have h2 := h.2
    have hL : isWordChar (Char.toLower c) = true := by
      simp only [isWordChar, ht, Bool.or_eq_true, Bool.and_eq_true, decide_eq_true_eq,
        beq_iff_eq]
      left; left; right; exact ⟨by omega, by omega⟩
    have hR : isWordChar c = true := by
      simp only [isWordChar, Bool.or_eq_true, Bool.and_eq_true, decide_eq_true_eq, beq_iff_eq]
      left; left; left; exact ⟨h1, h2⟩
    rw [hL, hR]
  · rw [toLower_eq_self_of_not_upper c h]

theorem toLower_toLower (c : Char) : Char.toLower (Char.toLower c) = Char.toLower c := by
  by_cases h : 65 ≤ c.toNat ∧ c.toNat ≤ 90
  · have ht := toLower_toNat_of_upper c h.1 h.2
    apply toLower_eq_self_of_not_upper
    omega
  · rw [toLower_eq_self_of_not_upper c h, toLower_eq_self_of_not_upper c h]

theorem toUpper_toNat_of_lower (c : Char) (h1 : 97 ≤ c.toNat) (h2 : c.toNat ≤ 122) :
    (Char.toUpper c).toNat = c.toNat - 32 := by
  rw [Char.toUpper, if_pos ⟨h1, h2⟩]
  exact char_toNat_ofNat_valid _ (by omega)

theorem toLower_toUpper (c : Char) : Char.toLower (Char.toUpper c) = Char.toLower c := by
  by_cases h : 97 ≤ c.toNat ∧ c.toNat ≤ 122
  · have ht := toUpper_toNat_of_lower c h.1 h.2
    have hup : 65 ≤ (Char.toUpper c).toNat ∧ (Char.toUpper c).toNat ≤ 90 := by omega
    have hc : ¬ (65 ≤ c.toNat ∧ c.toNat ≤ 90) := by omega
    rw [toLower_eq_self_of_not_upper c hc]
    rw [Char.toLower, if_pos hup, ht]
    have : c.toNat - 32 + 32 = c.toNat := by omega
    rw [this]
    apply Char.ext
    have := char_toNat_ofNat_valid c.toNat (by omega)
    have hval : (Char.ofNat c.toNat) = c := Char.ofNat_toNat c
    rw [hval]
  · have : Char.toUpper c = c := by rw [Char.toUpper, if_neg h]
    rw [this]

theorem isWS_not_word (c : Char) (h : isWS c = true) : isWordChar c = false := by
  simp only [isWS, Bool.or_eq_true, beq_iff_eq] at h
  rcases h with ((h | h) | h) | h <;> subst h <;> decide

/-! ### Maximal runs

`runsBy f l` is the ordered list of maximal runs of characters
satisfying `f` in `l`; characters not satisfying `f` are discarded.
With `f = isWordChar` on a lowercased string this is exactly
`re.findall(r"\b\w+\b", s.lower())`, the program's tokenizer. -/

def runsGo (f : Char → Bool) : List Char → List Char → List (List Char)
  | [], acc => if acc.isEmpty then [] else [acc.reverse]
  | c :: cs, acc =>
    if f c then runsGo f cs (c :: acc)
    else if acc.isEmpty then runsGo f cs [] else acc.reverse :: runsGo f cs []

def runsBy (f : Char → Bool) (l : List Char) : List (List Char) := runsGo f l []

theorem runsGo_append_stop (f : Char → Bool) (c : Char) (hc : f c = false) :
    ∀ (a : List Char) (acc : List Char), runsGo f (a ++ [c]) acc = runsGo f a acc := by
  intro a
  induction a with
  | nil =>
    intro acc
    simp only [List.nil_append, runsGo, hc, Bool.false_eq_true, if_false]
    by_cases h : acc.isEmpty = true
    · simp only [h, if_true]
      rfl
    · simp only [h, if_false]
      rfl
  | cons d a ih =>
    intro acc
    simp only [List.cons_append, runsGo, List.append_eq]
    by_cases hd : f d = true
    · simp only [hd, if_true]
      exact ih _
    · simp only [hd, Bool.false_eq_true, if_false]
      by_cases h : acc.isEmpty = true
      · simp only [h, if_true]
        exact ih _
      · simp only [h, if_false]
        rw [ih]

theorem runsGo_glue (f : Char → Bool) (c : Char) (hc : f c = false) :
    ∀ (a b : List Char) (acc : List Char),
      runsGo f (a ++ c :: b) acc = runsGo f (a ++ [c]) acc ++ runsGo f b [] := by
  intro a
  induction a with
  | nil =>
    intro b acc
    simp only [List.nil_append, runsGo, hc, Bool.false_eq_true, if_false]
    by_cases h : acc.isEmpty = true
    · simp [h]
    · simp [h]
  | cons d a ih =>
    intro b acc
    simp only [List.cons_append, runsGo, List.append_eq]
    by_cases hd : f d = true
    · simp only [hd, if_true]
      exact ih _ _
    · simp only [hd, Bool.false_eq_true, if_false]
      by_cases h : acc.isEmpty = true
      · simp only [h, if_true]
        exact ih _ _
      · simp only [h, if_false]
        rw [ih]
        simp

/-- Splitting a run list at a character that does not satisfy `f`. -/
theorem runsBy_glue (f : Char → Bool) (c : Char) (hc : f c = false) (a b : List Char) :
    runsBy f (a ++ c :: b) = runsBy f a ++ runsBy f b := by
  unfold runsBy
  rw [runsGo_glue f c hc, runsGo_append_stop f c hc]

theorem runsBy_cons_neg (f : Char → Bool) (c : Char) (hc : f c = false) (b : List Char) :
    runsBy f (c :: b) = runsBy f b := by
  have := runsBy_glue f c hc [] b
  simpa using this

theorem runsBy_nil (f : Char → Bool) : runsBy f [] = [] := rfl

theorem runsGo_all_pos (f : Char → Bool) :
    ∀ (l : List Char) (acc : List Char), (∀ c ∈ l, f c = true) →
      runsGo f l acc = if (acc.reverse ++ l).isEmpty then [] else [acc.reverse ++ l] := by
  intro l
  induction l with
  | nil => intro acc _; simp [runsGo, List.isEmpty_iff]
  | cons c cs ih =>
    intro acc h
    have hc : f c = true := h c (by simp)
    simp only [runsGo, hc, if_true]
    rw [ih (c :: acc) (fun d hd => h d (by simp [hd]))]
    simp [List.isEmpty_iff]

theorem runsBy_all_pos (f : Char → Bool) (l : List Char) (hne : l ≠ [])
    (h : ∀ c ∈ l, f c = true) : runsBy f l = [l] := by
  unfold runsBy
  rw [runsGo_all_pos f l [] h]
  simp [List.isEmpty_iff, hne]

theorem runsBy_all_neg (f : Char → Bool) :
    ∀ (l : List Char), (∀ c ∈ l, f c = false) → runsBy f l = [] := by
  intro l
  induction l with
  | nil => intro _; rfl
  | cons c cs ih =>
    intro h
    rw [runsBy_cons_neg f c (h c (by simp))]
    exact ih (fun d hd => h d (by simp [hd]))

theorem runsBy_append_all_neg (f : Char → Bool) (a t : List Char)
    (h : ∀ c ∈ t, f c = false) : runsBy f (a ++ t) = runsBy f a := by
  cases t with
  | nil => simp
  | cons c t =>
    rw [runsBy_glue f c (h c (by simp)) a t]
    rw [runsBy_all_neg f t (fun d hd => h d (by simp [hd]))]
    simp

theorem runsBy_all_neg_append (f : Char → Bool) (t a : List Char)
    (h : ∀ c ∈ t, f c = false) : runsBy f (t ++ a) = runsBy f a := by
  induction t with
  | nil => simp
  | cons c t ih =>
    simp only [List.cons_append]
    rw [runsBy_cons_neg f c (h c (by simp))]
    exact ih (fun d hd => h d (by simp [hd]))

/-- Soundness of runs: each run is nonempty, consists of `f`-characters,
and its characters come from the input. -/
theorem runsGo_sound (f : Char → Bool) :
    ∀ (l : List Char) (acc : List Char) (u : List Char), u ∈ runsGo f l acc →
      (∀ c ∈ acc, f c = true) →
      u ≠ [] ∧ (∀ c ∈ u, f c = true ∧ (c ∈ acc ∨ c ∈ l)) := by
  intro l
  induction l with
  | nil =>
    intro acc u hu hacc
    simp only [runsGo] at hu
    by_cases h : acc.isEmpty
    · simp [h] at hu
    · simp only [h, Bool.false_eq_true, if_false, List.mem_singleton] at hu
      subst hu
      refine ⟨by simpa [List.isEmpty_iff] using h, ?_⟩
      intro c hc
      rw [List.mem_reverse] at hc
      exact ⟨hacc c hc, Or.inl hc⟩
  | cons d cs ih =>
    intro acc u hu hacc
    simp only [runsGo] at hu
    by_cases hd : f d
    · simp only [hd, if_true] at hu
      have hacc' : ∀ c ∈ d :: acc, f c = true := by
        intro c hc
        rcases List.mem_cons.1 hc with h | h
        · subst h; exact hd
        · exact hacc c h
      obtain ⟨h1, h2⟩ := ih (d :: acc) u hu hacc'
      refine ⟨h1, fun c hc => ?_⟩
      obtain ⟨hf, hm⟩ := h2 c hc
      refine ⟨hf, ?_⟩
      rcases hm with h | h
      · rcases List.mem_cons.1 h with h | h
        · subst h; exact Or.inr (by simp)
        · exact Or.inl h
      · exact Or.inr (by simp [h])
    · simp only [hd, Bool.false_eq_true, if_false] at hu
      by_cases h : acc.isEmpty
      · simp only [h, if_true] at hu
        obtain ⟨h1, h2⟩ := ih [] u hu (by simp)
        refine ⟨h1, fun c hc => ?_⟩
        obtain ⟨hf, hm⟩ := h2 c hc
        rcases hm with h | h
        · simp at h
        · exact ⟨hf, Or.inr (by simp [h])⟩
      · simp only [h, Bool.false_eq_true, if_false, List.mem_cons] at hu
        rcases hu with hu | hu
        · subst hu
          refine ⟨by simpa [List.isEmpty_iff] using h, ?_⟩
          intro c hc
          rw [List.mem_reverse] at hc
          exact ⟨hacc c hc, Or.inl hc⟩
        · obtain ⟨h1, h2⟩ := ih [] u hu (by simp)
          refine ⟨h1, fun c hc => ?_⟩
          obtain ⟨hf, hm⟩ := h2 c hc
          rcases hm with h | h
          · simp at h
          · exact ⟨hf, Or.inr (by simp [h])⟩

theorem runsBy_sound (f : Char → Bool) (l : List Char) (u : List Char)
    (hu : u ∈ runsBy f l) :
    u ≠ [] ∧ (∀ c ∈ u, f c = true ∧ c ∈ l) := by
  obtain ⟨h1, h2⟩ := runsGo_sound f l [] u hu (by simp)
  refine ⟨h1, fun c hc => ?_⟩
  obtain ⟨hf, hm⟩ := h2 c hc
  rcases hm with h | h
  · simp at h
  · exact ⟨hf, h⟩

/-- Completeness: joining the runs gives back exactly the `f`-characters. -/
theorem runsGo_join (f : Char → Bool) :
    ∀ (l : List Char) (acc : List Char),
      (runsGo f l acc).flatten = acc.reverse ++ l.filter f := by
  intro l
  induction l with
  | nil =>
    intro acc
    by_cases h : acc.isEmpty
    · simp [runsGo, h, List.isEmpty_iff.1 h]
    · simp [runsGo, h]
  | cons c cs ih =>
    intro acc
    simp only [runsGo]
    by_cases hc : f c
    · simp [hc, ih, List.filter_cons]
    · by_cases h : acc.isEmpty
      · simp [hc, h, ih, List.filter_cons, List.isEmpty_iff.1 h]
      · simp [hc, h, ih, List.filter_cons]

theorem runsBy_join (f : Char → Bool) (l : List Char) :
    (runsBy f l).flatten = l.filter f := by
  simpa using runsGo_join f l []

/-- Runs commute with a character map that preserves the class `f`. -/
theorem runsGo_map (f : Char → Bool) (g : Char → Char) (hg : ∀ c, f (g c) = f c) :
    ∀ (l : List Char) (acc : List Char),
      runsGo f (l.map g) (acc.map g) = (runsGo f l acc).map (List.map g) := by
  intro l
  induction l with
  | nil =>
    intro acc
    by_cases h : acc.isEmpty
    · simp [runsGo, h, List.isEmpty_iff.1 h]
    · have : (acc.map g).isEmpty = false := by
        cases acc with
        | nil => simp at h
        | cons a as => simp
      simp only [List.map_nil, runsGo, this, Bool.false_eq_true, if_false, h]
      simp [List.map_reverse]
  | cons c cs ih =>
    intro acc
    simp only [List.map_cons, runsGo, hg c]
    by_cases hc : f c
    · simp only [hc, if_true]
      have := ih (c :: acc)
      simpa using this
    · simp only [hc, Bool.false_eq_true, if_false]
      by_cases h : acc.isEmpty
      · have hmap : (acc.map g).isEmpty = true := by
          rw [List.isEmpty_iff.1 h]; rfl
        simp only [hmap, if_true, h]
        have := ih []
        simpa using this
      · have hmap : (acc.map g).isEmpty = false := by
          cases acc with
          | nil => simp at h
          | cons a as => simp
        simp only [hmap, Bool.false_eq_true, if_false, h]
        have := ih []
        simp only [List.map_nil] at this
        rw [this, List.map_cons, List.map_reverse]

theorem runsBy_map (f : Char → Bool) (g : Char → Char) (hg : ∀ c, f (g c) = f c)
    (l : List Char) : runsBy f (l.map g) = (runsBy f l).map (List.map g) := by
  have := runsGo_map f g hg l []
  simpa [runsBy] using this

/-! ### Chunks

`chunks l` splits `l` into maximal runs of characters of equal
word-character class, keeping both the word runs and the separator
runs, in order.  Word-boundary positions of the regexes are exactly
the chunk boundaries between a word chunk and a non-word chunk. -/

def chGo : List Char → List Char → List (List Char)
  | [], acc => if acc.isEmpty then [] else [acc.reverse]
  | c :: cs, acc =>
    match acc with
    | [] => chGo cs [c]
    | a :: as_ =>
      if isWordChar c == isWordChar a then chGo cs (c :: a :: as_)
      else (a :: as_).reverse :: chGo cs [c]

def chunks (l : List Char) : List (List Char) := chGo l []

theorem chGo_flatten : ∀ (l acc : List Char), (chGo l acc).flatten = acc.reverse ++ l := by
  intro l
  induction l with
  | nil =>
    intro acc
    by_cases h : acc.isEmpty = true
    · simp [chGo, h, List.isEmpty_iff.1 h]
    · simp [chGo, h]
  | cons c cs ih =>
    intro acc
    cases acc with
    | nil => simpa [chGo] using ih [c]
    | cons a as_ =>
      simp only [chGo]
      by_cases h : isWordChar c == isWordChar a
      · simp only [h, if_true]
        simpa using ih (c :: a :: as_)
      · simp only [h, Bool.false_eq_true, if_false]
        rw [List.flatten_cons, ih [c]]
        simp

theorem chunks_flatten (l : List Char) : (chunks l).flatten = l := by
  simpa using chGo_flatten l []

/-- Well-formed chunk list: each chunk is nonempty and homogeneous in
word-character class, and the class of the first chunk differs from
`p` (the class of the preceding chunk, if any). -/
def chunksOkAux : Option Bool → List (List Char) → Bool
  | _, [] => true
  | p, ch :: chs =>
    match ch with
    | [] => false
    | c :: cr =>
      (c :: cr).all (fun d => isWordChar d == isWordChar c) &&
      (p != some (isWordChar c)) &&
      chunksOkAux (some (isWordChar c)) chs

theorem chGo_ok :
    ∀ (l acc : List Char) (b : Bool) (p : Option Bool),
      ((acc = [] ∧ p = none) ∨
        (acc ≠ [] ∧ (∀ d ∈ acc, isWordChar d = b) ∧ p ≠ some b)) →
      chunksOkAux p (chGo l acc) = true := by
  intro l
  induction l with
  | nil =>
    intro acc b p hyp
    rcases hyp with ⟨h1, h2⟩ | ⟨h1, h2, h3⟩
    · subst h1; rfl
    · have hne : acc.isEmpty = false := by
        cases acc with
        | nil => exact absurd rfl h1
        | cons x xs => rfl
      simp only [chGo, hne, Bool.false_eq_true, if_false]
      cases hrev : acc.reverse with
      | nil =>
        exact absurd (List.reverse_eq_nil_iff.1 hrev) h1
      | cons r rs =>
        simp only [chunksOkAux]
        have hmem : ∀ d ∈ r :: rs, isWordChar d = b := by
          intro d hd
          apply h2
          rw [← List.mem_reverse, hrev]
          exact hd
        have hr : isWordChar r = b := hmem r (by simp)
        simp only [Bool.and_eq_true, List.all_eq_true]
        refine ⟨⟨?_, ?_⟩, trivial⟩
        · intro d hd
          rw [hmem d hd, hr]
          exact beq_self_eq_true b
        · rw [hr]
          cases p with
          | none => rfl
          | some q =>
            have : q ≠ b := fun hq => h3 (by rw [hq])
            simpa using this
  | cons c cs ih =>
    intro acc b p hyp
    rcases hyp with ⟨h1, h2⟩ | ⟨h1, h2, h3⟩
    · subst h1; subst h2
      simp only [chGo]
      exact ih [c] (isWordChar c) none (Or.inr (by simp))
    · cases acc with
      | nil => exact absurd rfl h1
      | cons a as_ =>
        simp only [chGo]
        have ha : isWordChar a = b := h2 a (by simp)
        by_cases hcls : isWordChar c == isWordChar a
        · simp only [hcls, if_true]
          apply ih (c :: a :: as_) b p
          refine Or.inr ⟨by simp, ?_, h3⟩
          intro d hd
          rcases List.mem_cons.1 hd with h | h
          · subst h
            rw [← ha]
            exact eq_of_beq hcls
          · exact h2 d h
        · simp only [hcls, if_false]
          cases hrev : (a :: as_).reverse with
          | nil =>
            exfalso
            have := congrArg List.length hrev
            simp at this
          | cons r rs =>
            simp only [chunksOkAux]
            have hmem : ∀ d ∈ r :: rs, isWordChar d = b := by
              intro d hd
              apply h2
              rw [← List.mem_reverse, hrev]
              exact hd
            have hr : isWordChar r = b := hmem r (by simp)
            simp only [Bool.and_eq_true, List.all_eq_true]
            refine ⟨⟨?_, ?_⟩, ?_⟩
            · intro d hd
              rw [hmem d hd, hr]
              exact beq_self_eq_true b
            · rw [hr]
              cases p with
              | none => rfl
              | some q =>
                have : q ≠ b := fun hq => h3 (by rw [hq])
                simpa using this
            · rw [hr]
              apply ih [c] (isWordChar c) (some b)
              refine Or.inr ⟨by simp, by simp, ?_⟩
              intro heq
              have hbc : isWordChar c = b := (Option.some.inj heq).symm
              apply hcls
              rw [hbc, ha]
              exact beq_self_eq_true b

theorem chunks_ok (l : List Char) : chunksOkAux none (chunks l) = true :=
  chGo_ok l [] true none (Or.inl ⟨rfl, rfl⟩)

/-! ### The regex-substitution engine

`scGo pats repl 0 cs` scans the chunk list `cs` of the subject left to
right.  At each chunk it tries the pattern alternatives in order
(`tryPats`); an alternative matches when its own chunks equal the next
chunks of the subject up to ASCII case (`matchChunks`): this is the
word-boundary/IGNORECASE matching of `re.sub` described in the header.
On a match the replacement is emitted and the matched chunks are
skipped; otherwise the chunk is copied. -/

def matchChunks : List (List Char) → List (List Char) → Bool
  | [], _ => true
  | _ :: _, [] => false
  | p :: ps, c :: cs => (p.map Char.toLower == c.map Char.toLower) && matchChunks ps cs

def tryPats : List (List (List Char)) → List (List Char) → Option Nat
  | [], _ => none
  | p :: ps, cs => if !p.isEmpty && matchChunks p cs then some p.length else tryPats ps cs

def scGo (ps : List (List (List Char))) (repl : List Char) : Nat → List (List Char) → List Char
  | _, [] => []
  | n + 1, _ :: chs => scGo ps repl n chs
  | 0, ch :: chs =>
    match tryPats ps (ch :: chs) with
    | some k => repl ++ scGo ps repl (k - 1) chs
    | none => ch ++ scGo ps repl 0 chs

/-- `re.sub(rf"\b(p1|p2|...)\b", repl, s, flags=re.IGNORECASE)` for
literal word/phrase alternatives `pats`. -/
def reSub (pats : List String) (repl : String) (s : String) : String :=
  String.mk (scGo (pats.map (fun p => chunks p.data)) repl.data 0 (chunks s.data))

/-- A `for`-loop performing one whole-word `re.sub` per table entry, in
table order (the shape shared by `simplify_phrases`,
`remove_redundant_phrases` and `convert_numbers`). -/
def subAll (prs : List (String × String)) (s : String) : String :=
  prs.foldl (fun acc p => reSub [p.1] p.2 acc) s

/-! ### Python string helpers -/

/-- `re.split(r"[,;]", l)`: all parts, empty parts included. -/
def splitCSgo : List Char → List Char × List (List Char)
  | [] => ([], [])
  | c :: cs =>
    let r := splitCSgo cs
    if c = ',' ∨ c = ';' then ([], r.1 :: r.2) else (c :: r.1, r.2)

def splitCS (l : List Char) : List (List Char) := (splitCSgo l).1 :: (splitCSgo l).2

/-- Trailing-whitespace removal (right half of `str.strip`). -/
def rstripL : List Char → List Char
  | [] => []
  | c :: cs =>
    let r := rstripL cs
    if r.isEmpty && isWS c then [] else c :: r

/-- Python `str.strip()` (ASCII whitespace model). -/
def stripL (l : List Char) : List Char := rstripL (l.dropWhile (fun c => isWS c))

/-- Python `str.capitalize()`: first character upper-cased, all
remaining characters lower-cased. -/
def capitalizeL : List Char → List Char
  | [] => []
  | c :: cs => Char.toUpper c :: cs.map Char.toLower

/-- Python `sep.join(parts)`. -/
def joinSep (sep : List Char) : List (List Char) → List Char
  | [] => []
  | [x] => x
  | x :: y :: xs => x ++ sep ++ joinSep sep (y :: xs)

/-- `len(l.split())`: number of maximal non-whitespace runs. -/
def wordCountL (l : List Char) : Nat := (runsBy (fun c => !isWS c) l).length

/-! ### The program: rule tables (class `Config` of `compressor.py`) -/

structure Config where
  stop_words : List String
  synonyms : List (String × String)
  redundant_phrases : List (String × String)
  number_mapping : List (String × String)
  compression_levels : List (Int × String)
  unnecessary_adjectives : List String

/-- The default rule tables, in source order.  The duplicate dict key
`"utilize"` of the source collapses to its first position with the
(identical) value of the last write, as in a Python dict literal. -/
def defaultConfig : Config :=
  { stop_words := ["the", "is", "in", "at", "of", "and", "to", "for", "on", "with", "a", "an"]
    synonyms :=
      [("utilize", "use"), ("demonstrate", "show"), ("accomplish", "do"),
       ("in order to", "to"), ("due to the fact that", "because"),
       ("approximately", "approx."), ("for example", "e.g."),
       ("do not", "don\x27t"), ("cannot", "can\x27t"), ("does not", "doesn\x27t"),
       ("implement", "use"), ("facilitate", "help"), ("leverage", "use"),
       ("optimize", "improve"), ("enhance", "improve"), ("mitigate", "reduce"),
       ("necessitate", "need"), ("commence", "start"),
       ("terminate", "end"), ("subsequent", "later"), ("prior to", "before"),
       ("in the event that", "if"), ("despite the fact that", "although"),
       ("at this point in time", "now"), ("in the near future", "soon")]
    redundant_phrases :=
      [("repeat again", "repeat"), ("added bonus", "bonus"),
       ("advance planning", "planning"), ("basic essentials", "essentials"),
       ("blend together", "blend"), ("collaborate together", "collaborate"),
       ("end result", "result"), ("future plans", "plans"),
       ("past history", "history"), ("revert back", "revert"),
       ("sum total", "total"), ("unexpected surprise", "surprise")]
    number_mapping :=
      [("one", "1"), ("two", "2"), ("three", "3"), ("four", "4"), ("five", "5"),
       ("six", "6"), ("seven", "7"), ("eight", "8"), ("nine", "9"), ("ten", "10"),
       ("eleven", "11"), ("twelve", "12"), ("thirteen", "13"), ("fourteen", "14"),
       ("fifteen", "15"), ("sixteen", "16"), ("seventeen", "17"), ("eighteen", "18"),
       ("nineteen", "19"), ("twenty", "20"), ("thirty", "30"), ("forty", "40"),
       ("fifty", "50"), ("sixty", "60"), ("seventy", "70"), ("eighty", "80"),
       ("ninety", "90"), ("hundred", "100"), ("thousand", "1000"), ("million", "1000000")]
    compression_levels := [(1, "minimal"), (2, "moderate"), (3, "aggressive"), (4, "maximum")]
    unnecessary_adjectives :=
      ["very", "extremely", "really", "just", "simply", "quite", "rather",
       "somewhat", "fairly", "pretty", "totally", "absolutely", "completely",
       "utterly", "entirely", "fully", "thoroughly", "wholly", "perfectly"] }

/-! ### The program: operations (class `LLMTextSimplifier`) -/

/-- `re.findall(r"\b\w+\b", sentence.lower())`. -/
def tokenize (s : String) : List String :=
  (runsBy isWordChar (s.data.map Char.toLower)).map String.mk

def remove_stop_words (cfg : Config) (tokens : List String) : List String :=
  tokens.filter (fun w => !cfg.stop_words.contains w)

/-- Python `dict.get(word, word)` over an association list in insertion
order. -/
def dictGet (d : List (String × String)) (k : String) : String :=
  match d.find? (fun p => p.1 == k) with
  | some p => p.2
  | none => k

def replace_synonyms (cfg : Config) (tokens : List String) : List String :=
  tokens.map (dictGet cfg.synonyms)

def simplify_phrases (cfg : Config) (s : String) : String := subAll cfg.synonyms s

def remove_redundant_phrases (cfg : Config) (s : String) : String :=
  subAll cfg.redundant_phrases s

/-- `r"\bis\b (being )?(done|used|shown|demonstrated) by\b"` expanded
into its alternatives, in the order the backtracking engine tries them
(greedy optional group first, then verb alternatives in order). -/
def passiveIsAlts : List String :=
  ["is being done by", "is being used by", "is being shown by", "is being demonstrated by",
   "is done by", "is used by", "is shown by", "is demonstrated by"]

/-- The `are` variant of the passive pattern. -/
def passiveAreAlts : List String :=
  ["are being done by", "are being used by", "are being shown by", "are being demonstrated by",
   "are done by", "are used by", "are shown by", "are demonstrated by"]

def convert_passive_to_active (s : String) : String :=
  reSub passiveAreAlts "do" (reSub passiveIsAlts "does" s)

def remove_unnecessary_adjectives (cfg : Config) (tokens : List String) : List String :=
  tokens.filter (fun w => !cfg.unnecessary_adjectives.contains w)

def convert_numbers (cfg : Config) (s : String) : String := subAll cfg.number_mapping s

def compress_max (s : String) : String :=
  let s1 := reSub ["is", "are", "am", "was", "were"] "" s
  let s2 := reSub ["has", "have", "had"] "" s1
  let s3 := reSub ["that", "which", "who"] "" s2
  String.mk (stripL s3.data)

def split_long_sentences (s : String) : String :=
  if 20 < wordCountL s.data then
    let parts := splitCS s.data
    if 1 < parts.length then
      String.mk (joinSep ['.', ' '] (parts.map (fun p => capitalizeL (stripL p))))
    else s
  else s

/-- `LLMTextSimplifier._simplify`, the full pipeline.  Note that at
level 1 the token-stage results are computed but the string `sentence`
is only rebuilt from the tokens inside the `level >= 2` branch, exactly
as in the source. -/
def runPipeline (cfg : Config) (lv : Int) (s : String) : String :=
  let tokens0 := tokenize s
  let tokens1 :=
    if 1 ≤ lv then replace_synonyms cfg (remove_stop_words cfg tokens0) else tokens0
  let s2 :=
    if 2 ≤ lv then
      simplify_phrases cfg (String.intercalate " " (remove_unnecessary_adjectives cfg tokens1))
    else s
  let s3 := if 3 ≤ lv then remove_redundant_phrases cfg (convert_passive_to_active s2) else s2
  let s4 := if lv = 4 then compress_max s3 else s3
  String.mk (stripL (convert_numbers cfg (split_long_sentences s4)).data)

/-- An `LLMTextSimplifier` instance: its rule tables and active level. -/
structure Simplifier where
  config : Config
  level : Int

/-- `simplify_sentence` (the two log emissions do not affect the
returned value and are not modelled). -/
def simplify_sentence (sim : Simplifier) (s : String) : String :=
  runPipeline sim.config sim.level s

def levelKeys (cfg : Config) : List Int := cfg.compression_levels.map Prod.fst

def minKeyD : List Int → Int
  | [] => 0
  | x :: xs => xs.foldl min x

def maxKeyD : List Int → Int
  | [] => 0
  | x :: xs => xs.foldl max x

/-- The message of the `ValueError` raised by `set_level`, computed
from the current minimum and maximum of the level table's keys. -/
def invalidLevelMsg (cfg : Config) : String :=
  "Invalid level. Choose between " ++ toString (minKeyD (levelKeys cfg)) ++ " and " ++
    toString (maxKeyD (levelKeys cfg)) ++ "."

/-- `set_level`: on success the level field is updated; on failure the
state is unchanged and the `InvalidLevel` error (Python `ValueError`)
carries the range message. -/
def set_level (sim : Simplifier) (n : Int) : Simplifier × Option String :=
  if (levelKeys sim.config).contains n then ({ sim with level := n }, none)
  else (sim, some (invalidLevelMsg sim.config))

def batch_simplify (sim : Simplifier) (ss : List String) : List String :=
  ss.map (simplify_sentence sim)

/-! ### The specification-side observation predicate

`containsWordCI w s`: does `s` contain a case-insensitive whole-word
occurrence of `w`?  A whole-word occurrence of a word (a nonempty
string of word characters) is exactly a maximal word-character run
equal to it, so this is membership of `w` in the lowercased runs. -/

def containsWordCI (w : String) (s : String) : Bool :=
  (runsBy isWordChar (s.data.map Char.toLower)).contains (w.data.map Char.toLower)

theorem containsWordCI_false_iff (w s : String) :
    containsWordCI w s = false ↔
      ∀ u ∈ runsBy isWordChar s.data, u.map Char.toLower ≠ w.data.map Char.toLower := by
  unfold containsWordCI
  rw [runsBy_map isWordChar Char.toLower isWordChar_toLower]
  constructor
  · intro h u hu heq
    have hmem : (w.data.map Char.toLower) ∈
        (runsBy isWordChar s.data).map (List.map Char.toLower) := by
      rw [← heq]
      exact List.mem_map_of_mem _ hu
    rw [← List.elem_iff (a := w.data.map Char.toLower)] at hmem
    rw [List.contains] at h
    rw [h] at hmem
    exact Bool.false_ne_true hmem
  · intro h
    rw [List.contains]
    cases helem : List.elem (w.data.map Char.toLower)
        ((runsBy isWordChar s.data).map (List.map Char.toLower)) with
    | false => rfl
    | true =>
      exfalso
      rw [List.elem_iff] at helem
      obtain ⟨u, hu, hequ⟩ := List.mem_map.1 helem
      exact h u hu hequ

/-! ### Lemmas about the substitution engine (single-word patterns) -/

/-- Case-insensitive equality preserves the word-character property. -/
theorem lowEq_class :
    ∀ (u v : List Char), u.map Char.toLower = v.map Char.toLower →
      (∀ c ∈ u, isWordChar c = true) → ∀ c ∈ v, isWordChar c = true := by
  intro u
  induction u with
  | nil =>
    intro v h _ c hc
    cases v with
    | nil => simp at hc
    | cons b v => simp at h
  | cons a u ih =>
    intro v h hu c hc
    cases v with
    | nil => simp at hc
    | cons b v =>
      simp only [List.map_cons, List.cons.injEq] at h
      rcases List.mem_cons.1 hc with hc | hc
      · subst hc
        have : isWordChar (Char.toLower c) = isWordChar (Char.toLower a) := by rw [h.1]
        rw [isWordChar_toLower, isWordChar_toLower] at this
        rw [this]
        exact hu a (by simp)
      · exact ih v h.2 (fun d hd => hu d (by simp [hd])) c hc

theorem matchChunks_single (w ch : List Char) (chs : List (List Char)) :
    matchChunks [w] (ch :: chs) = (w.map Char.toLower == ch.map Char.toLower) := by
  simp [matchChunks]

theorem tryPats_single_some (pats : List (List Char)) :
    ∀ (cs : List (List Char)) (k : Nat),
      tryPats (pats.map fun w => [w]) cs = some k → k = 1 := by
  induction pats with
  | nil => intro cs k h; simp [tryPats] at h
  | cons w ps ih =>
    intro cs k h
    simp only [List.map_cons, tryPats] at h
    by_cases hm : (!([w] : List (List Char)).isEmpty && matchChunks [w] cs) = true
    · rw [if_pos hm] at h
      have := Option.some.inj h
      simp at this
      omega
    · rw [if_neg hm] at h
      exact ih cs k h

theorem tryPats_single_mem (pats : List (List Char)) :
    ∀ (cs : List (List Char)) (k : Nat),
      tryPats (pats.map fun w => [w]) cs = some k →
      ∃ w ∈ pats, matchChunks [w] cs = true := by
  induction pats with
  | nil => intro cs k h; simp [tryPats] at h
  | cons w ps ih =>
    intro cs k h
    simp only [List.map_cons, tryPats] at h
    by_cases hm : (!([w] : List (List Char)).isEmpty && matchChunks [w] cs) = true
    · refine ⟨w, by simp, ?_⟩
      simpa using hm
    · rw [if_neg hm] at h
      obtain ⟨w', hw', hm'⟩ := ih cs k h
      exact ⟨w', by simp [hw'], hm'⟩

theorem tryPats_single_none (pats : List (List Char)) :
    ∀ (cs : List (List Char)),
      tryPats (pats.map fun w => [w]) cs = none →
      ∀ w ∈ pats, matchChunks [w] cs = false := by
  induction pats with
  | nil => intro cs _ w hw; simp at hw
  | cons w ps ih =>
    intro cs h w' hw'
    simp only [List.map_cons, tryPats] at h
    by_cases hm : (!([w] : List (List Char)).isEmpty && matchChunks [w] cs) = true
    · rw [if_pos hm] at h; exact absurd h (by simp)
    · rw [if_neg hm] at h
      rcases List.mem_cons.1 hw' with he | he
      · subst he
        cases hmc : matchChunks [w'] cs with
        | false => rfl
        | true => exact absurd (by simp [hmc]) hm
      · exact ih cs h w' he

theorem tryPats_none_of_all_fail (pats : List (List Char)) :
    ∀ (cs : List (List Char)),
      (∀ w ∈ pats, matchChunks [w] cs = false) →
      tryPats (pats.map fun w => [w]) cs = none := by
  induction pats with
  | nil => intro cs _; rfl
  | cons w ps ih =>
    intro cs h
    simp only [List.map_cons, tryPats]
    have hw : matchChunks [w] cs = false := h w (by simp)
    rw [if_neg (by simp [hw])]
    exact ih cs (fun w' hw' => h w' (by simp [hw']))

/-- A list of characters of a single class forms a single chunk. -/
theorem chGo_all_same (b : Bool) :
    ∀ (l acc : List Char), (∀ c ∈ acc, isWordChar c = b) → (∀ c ∈ l, isWordChar c = b) →
      chGo l acc = if (acc.reverse ++ l).isEmpty then [] else [acc.reverse ++ l] := by
  intro l
  induction l with
  | nil =>
    intro acc _ _
    by_cases h : acc.isEmpty = true
    · simp [chGo, h, List.isEmpty_iff.1 h]
    · have hne : acc ≠ [] := by simpa [List.isEmpty_iff] using h
      simp [chGo, h, hne]
  | cons x xs ih =>
    intro acc hacc hl
    have hx : isWordChar x = b := hl x (by simp)
    cases acc with
    | nil =>
      simp only [chGo]
      rw [ih [x] (by intro d hd; simp at hd; subst hd; exact hx)
        (fun d hd => hl d (by simp [hd]))]
      simp
    | cons a as_ =>
      simp only [chGo]
      have hca : isWordChar x == isWordChar a := by
        rw [hx, hacc a (by simp)]
        exact beq_self_eq_true b
      simp only [hca, if_true]
      rw [ih (x :: a :: as_)
        (by
          intro d hd
          rcases List.mem_cons.1 hd with h | h
          · subst h; exact hx
          · exact hacc d h)
        (fun d hd => hl d (by simp [hd]))]
      simp

theorem chunks_all_same (b : Bool) (l : List Char) (hne : l ≠ [])
    (h : ∀ c ∈ l, isWordChar c = b) : chunks l = [l] := by
  unfold chunks
  rw [chGo_all_same b l [] (by simp) h]
  simp [List.isEmpty_iff, hne]

theorem chunksOkAux_cons (p : Option Bool) (ch : List Char) (chs : List (List Char))
    (h : chunksOkAux p (ch :: chs) = true) :
    ∃ c cr, ch = c :: cr ∧ (∀ d ∈ ch, isWordChar d = isWordChar c) ∧
      p ≠ some (isWordChar c) ∧ chunksOkAux (some (isWordChar c)) chs = true := by
  cases ch with
  | nil => simp [chunksOkAux] at h
  | cons c cr =>
    simp only [chunksOkAux, Bool.and_eq_true, List.all_eq_true] at h
    obtain ⟨⟨hall, hp⟩, hrec⟩ := h
    refine ⟨c, cr, rfl, ?_, ?_, hrec⟩
    · intro d hd
      exact eq_of_beq (hall d hd)
    · intro heq
      rw [heq] at hp
      simp at hp

theorem flatten_head_sep (chs : List (List Char)) (h : chunksOkAux (some true) chs = true) :
    chs.flatten = [] ∨ ∃ d rest, chs.flatten = d :: rest ∧ isWordChar d = false := by
  cases chs with
  | nil => left; rfl
  | cons ch chs2 =>
    obtain ⟨c, cr, hch, hall, hpneq, hrec⟩ := chunksOkAux_cons _ _ _ h
    right
    subst hch
    refine ⟨c, cr ++ chs2.flatten, by simp, ?_⟩
    cases hw : isWordChar c with
    | false => rfl
    | true => exact absurd (by rw [hw]) hpneq

/-- Appending a tail that is empty or starts with a non-word character
splits the word runs. -/
theorem runsW_append_any (x out : List Char)
    (hout : out = [] ∨ ∃ d rest, out = d :: rest ∧ isWordChar d = false) :
    runsBy isWordChar (x ++ out) =
      runsBy isWordChar x ++ runsBy isWordChar out := by
  rcases hout with h | ⟨d, rest, heq, hd⟩
  · rw [h, List.append_nil, runsBy_nil, List.append_nil]
  · rw [heq, runsBy_glue _ d hd, runsBy_cons_neg _ d hd]

theorem runsW_append_word (ch out : List Char) (hne : ch ≠ [])
    (hw : ∀ d ∈ ch, isWordChar d = true)
    (hout : out = [] ∨ ∃ d rest, out = d :: rest ∧ isWordChar d = false) :
    runsBy isWordChar (ch ++ out) = ch :: runsBy isWordChar out := by
  rw [runsW_append_any ch out hout, runsBy_all_pos _ ch hne hw]
  rfl

theorem runsW_cons_word (ch : List Char) (chs : List (List Char)) (hne : ch ≠ [])
    (hw : ∀ d ∈ ch, isWordChar d = true)
    (hrest : chs.flatten = [] ∨ ∃ d rest, chs.flatten = d :: rest ∧ isWordChar d = false) :
    runsBy isWordChar (ch :: chs).flatten = ch :: runsBy isWordChar chs.flatten := by
  rw [List.flatten_cons]
  exact runsW_append_word ch _ hne hw hrest

theorem runsW_cons_sep (ch : List Char) (chs : List (List Char))
    (hsep : ∀ d ∈ ch, isWordChar d = false) :
    runsBy isWordChar (ch :: chs).flatten = runsBy isWordChar chs.flatten := by
  rw [List.flatten_cons]
  exact runsBy_all_neg_append _ ch _ hsep

/-- A single-word pattern cannot match at a separator chunk. -/
theorem tryPats_fail_sep (pats : List (List Char))
    (hp : ∀ w ∈ pats, w ≠ [] ∧ ∀ c ∈ w, isWordChar c = true)
    (c : Char) (cr : List Char) (chs : List (List Char)) (hc : isWordChar c = false) :
    tryPats (pats.map fun w => [w]) ((c :: cr) :: chs) = none := by
  apply tryPats_none_of_all_fail
  intro w hw
  rw [matchChunks_single]
  cases hbeq : (w.map Char.toLower == (c :: cr).map Char.toLower) with
  | false => rfl
  | true =>
    exfalso
    have heq : w.map Char.toLower = (c :: cr).map Char.toLower := eq_of_beq hbeq
    have hword := lowEq_class w (c :: cr) heq (hp w hw).2 c (by simp)
    rw [hc] at hword
    exact Bool.false_ne_true hword

/-- The scanner's output is empty or starts with a non-word character,
whenever the remaining chunk list follows a word chunk. -/
theorem scGo_out_sep (pats : List (List Char))
    (hp : ∀ w ∈ pats, w ≠ [] ∧ ∀ c ∈ w, isWordChar c = true) (repl : List Char)
    (chs : List (List Char)) (hok : chunksOkAux (some true) chs = true) :
    scGo (pats.map fun w => [w]) repl 0 chs = [] ∨
      ∃ d rest, scGo (pats.map fun w => [w]) repl 0 chs = d :: rest ∧
        isWordChar d = false := by
  cases chs with
  | nil => left; rfl
  | cons ch chs2 =>
    obtain ⟨c, cr, hch, hall, hpneq, hrec⟩ := chunksOkAux_cons _ _ _ hok
    have hc : isWordChar c = false := by
      cases hw : isWordChar c with
      | false => rfl
      | true => exact absurd (by rw [hw]) hpneq
    subst hch
    have hnone := tryPats_fail_sep pats hp c cr chs2 hc
    right
    refine ⟨c, cr ++ scGo (pats.map fun w => [w]) repl 0 chs2, ?_, hc⟩
    simp [scGo, hnone]

/-- Core lemma: every word run of the scanner's output is a word run of
the replacement, or a word run of the input that matches none of the
(whole-word) patterns. -/
theorem scGo_runs_single (pats : List (List Char))
    (hp : ∀ w ∈ pats, w ≠ [] ∧ ∀ c ∈ w, isWordChar c = true) (repl : List Char) :
    ∀ (cs : List (List Char)) (p : Option Bool), chunksOkAux p cs = true →
      ∀ u ∈ runsBy isWordChar (scGo (pats.map fun w => [w]) repl 0 cs),
        u ∈ runsBy isWordChar repl ∨
        (u ∈ runsBy isWordChar cs.flatten ∧
          ∀ w ∈ pats, u.map Char.toLower ≠ w.map Char.toLower) := by
  intro cs
  induction cs with
  | nil =>
    intro p _ u hu
    exact absurd hu (by simp [scGo, runsBy, runsGo])
  | cons ch chs ih =>
    intro p hok u hu
    obtain ⟨c, cr, hch, hall, hpneq, hrec⟩ := chunksOkAux_cons p ch chs hok
    cases hw : isWordChar c with
    | true =>
      rw [hw] at hrec
      have hchw : ∀ d ∈ ch, isWordChar d = true := fun d hd => by rw [hall d hd, hw]
      have hne : ch ≠ [] := by subst hch; simp
      have hout := scGo_out_sep pats hp repl chs hrec
      have hinput : runsBy isWordChar (ch :: chs).flatten
          = ch :: runsBy isWordChar chs.flatten :=
        runsW_cons_word ch chs hne hchw (flatten_head_sep chs hrec)
      cases hm : tryPats (pats.map fun w => [w]) (ch :: chs) with
      | some k =>
        have hk := tryPats_single_some pats (ch :: chs) k hm
        subst hk
        have hsc : scGo (pats.map fun w => [w]) repl 0 (ch :: chs)
            = repl ++ scGo (pats.map fun w => [w]) repl 0 chs := by
          simp [scGo, hm]
        rw [hsc, runsW_append_any repl _ hout] at hu
        rcases List.mem_append.1 hu with h | h
        · exact Or.inl h
        · rcases ih (some true) hrec u h with hl | ⟨hr1, hr2⟩
          · exact Or.inl hl
          · refine Or.inr ⟨?_, hr2⟩
            rw [hinput]
            exact List.mem_cons_of_mem _ hr1
      | none =>
        have hfail := tryPats_single_none pats (ch :: chs) hm
        have hsc : scGo (pats.map fun w => [w]) repl 0 (ch :: chs)
            = ch ++ scGo (pats.map fun w => [w]) repl 0 chs := by
          simp [scGo, hm]
        rw [hsc, runsW_append_word ch _ hne hchw hout] at hu
        rcases List.mem_cons.1 hu with hue | hue
        · subst hue
          refine Or.inr ⟨by rw [hinput]; exact List.mem_cons_self _ _, ?_⟩
          intro w hwm heq
          have hf := hfail w hwm
          rw [matchChunks_single] at hf
          have : (w.map Char.toLower == u.map Char.toLower) = true := by
            rw [← heq]
            exact beq_self_eq_true _
          rw [this] at hf
          exact Bool.true_eq_false ▸ hf
        · rcases ih (some true) hrec u hue with hl | ⟨hr1, hr2⟩
          · exact Or.inl hl
          · refine Or.inr ⟨?_, hr2⟩
            rw [hinput]
            exact List.mem_cons_of_mem _ hr1
    | false =>
      rw [hw] at hrec
      have hchs : ∀ d ∈ ch, isWordChar d = false := fun d hd => by rw [hall d hd, hw]
      have hnone : tryPats (pats.map fun w => [w]) (ch :: chs) = none := by
        subst hch
        exact tryPats_fail_sep pats hp c cr chs hw
      have hsc : scGo (pats.map fun w => [w]) repl 0 (ch :: chs)
          = ch ++ scGo (pats.map fun w => [w]) repl 0 chs := by
        simp [scGo, hnone]
      rw [hsc, runsBy_all_neg_append _ ch _ hchs] at hu
      rcases ih (some false) hrec u hu with hl | ⟨hr1, hr2⟩
      · exact Or.inl hl
      · refine Or.inr ⟨?_, hr2⟩
        rw [runsW_cons_sep ch chs hchs]
        exact hr1

/-- Identity lemma: if no word run of the input matches any pattern,
the substitution returns the input unchanged. -/
theorem scGo_id_single (pats : List (List Char))
    (hp : ∀ w ∈ pats, w ≠ [] ∧ ∀ c ∈ w, isWordChar c = true) (repl : List Char) :
    ∀ (cs : List (List Char)) (p : Option Bool), chunksOkAux p cs = true →
      (∀ u ∈ runsBy isWordChar cs.flatten, ∀ w ∈ pats,
        u.map Char.toLower ≠ w.map Char.toLower) →
      scGo (pats.map fun w => [w]) repl 0 cs = cs.flatten := by
  intro cs
  induction cs with
  | nil => intro p _ _; rfl
  | cons ch chs ih =>
    intro p hok hno
    obtain ⟨c, cr, hch, hall, hpneq, hrec⟩ := chunksOkAux_cons p ch chs hok
    cases hw : isWordChar c with
    | true =>
      rw [hw] at hrec
      have hchw : ∀ d ∈ ch, isWordChar d = true := fun d hd => by rw [hall d hd, hw]
      have hne : ch ≠ [] := by subst hch; simp
      have hinput : runsBy isWordChar (ch :: chs).flatten
          = ch :: runsBy isWordChar chs.flatten :=
        runsW_cons_word ch chs hne hchw (flatten_head_sep chs hrec)
      cases hm : tryPats (pats.map fun w => [w]) (ch :: chs) with
      | some k =>
        exfalso
        obtain ⟨w, hwm, hmc⟩ := tryPats_single_mem pats (ch :: chs) k hm
        rw [matchChunks_single] at hmc
        have heq : w.map Char.toLower = ch.map Char.toLower := eq_of_beq hmc
        have hmem : ch ∈ runsBy isWordChar (ch :: chs).flatten := by
          rw [hinput]
          exact List.mem_cons_self _ _
        exact hno ch hmem w hwm heq.symm
      | none =>
        have hsc : scGo (pats.map fun w => [w]) repl 0 (ch :: chs)
            = ch ++ scGo (pats.map fun w => [w]) repl 0 chs := by
          simp [scGo, hm]
        rw [hsc, List.flatten_cons]
        congr 1
        apply ih (some true) hrec
        intro u hu w hwm
        apply hno u _ w hwm
        rw [hinput]
        exact List.mem_cons_of_mem _ hu
    | false =>
      rw [hw] at hrec
      have hchs : ∀ d ∈ ch, isWordChar d = false := fun d hd => by rw [hall d hd, hw]
      have hnone : tryPats (pats.map fun w => [w]) (ch :: chs) = none := by
        subst hch
        exact tryPats_fail_sep pats hp c cr chs hw
      have hsc : scGo (pats.map fun w => [w]) repl 0 (ch :: chs)
          = ch ++ scGo (pats.map fun w => [w]) repl 0 chs := by
        simp [scGo, hnone]
      rw [hsc, List.flatten_cons]
      congr 1
      apply ih (some false) hrec
      intro u hu w hwm
      apply hno u _ w hwm
      rw [runsW_cons_sep ch chs hchs]
      exact hu

/-! ### String-level substitution lemmas -/

/-- `NoWord w l`: no word run of `l` equals `w` up to ASCII case, i.e.
`l` has no case-insensitive whole-word occurrence of `w`. -/
def NoWord (w : String) (l : List Char) : Prop :=
  ∀ u ∈ runsBy isWordChar l, u.map Char.toLower ≠ w.data.map Char.toLower

theorem string_mk_data (s : String) : String.mk s.data = s := rfl

theorem containsWordCI_false_of_noWord (w s : String) (h : NoWord w s.data) :
    containsWordCI w s = false :=
  (containsWordCI_false_iff w s).2 h

theorem noWord_of_containsWordCI_false (w s : String) (h : containsWordCI w s = false) :
    NoWord w s.data :=
  (containsWordCI_false_iff w s).1 h

theorem reSub_wordPats_eq (pats : List String)
    (hp : ∀ p ∈ pats, p.data ≠ [] ∧ ∀ c ∈ p.data, isWordChar c = true)
    (repl s : String) :
    (reSub pats repl s).data
      = scGo ((pats.map String.data).map fun w => [w]) repl.data 0 (chunks s.data) := by
  unfold reSub
  have : pats.map (fun p => chunks p.data) = (pats.map String.data).map fun w => [w] := by
    rw [List.map_map]
    apply List.map_congr_left
    intro p hpm
    have h := hp p hpm
    exact chunks_all_same true p.data h.1 h.2
  rw [this]

theorem reSub_preserves (pats : List String)
    (hp : ∀ p ∈ pats, p.data ≠ [] ∧ ∀ c ∈ p.data, isWordChar c = true)
    (repl s w : String)
    (hrepl : ∀ u ∈ runsBy isWordChar repl.data,
      u.map Char.toLower ≠ w.data.map Char.toLower)
    (hs : NoWord w s.data) : NoWord w (reSub pats repl s).data := by
  intro u hu
  rw [reSub_wordPats_eq pats hp] at hu
  have hp2 : ∀ v ∈ pats.map String.data, v ≠ [] ∧ ∀ c ∈ v, isWordChar c = true := by
    intro v hv
    obtain ⟨p, hpm, hpe⟩ := List.mem_map.1 hv
    exact hpe ▸ hp p hpm
  rcases scGo_runs_single (pats.map String.data) hp2 repl.data (chunks s.data) none
      (chunks_ok _) u hu with hl | ⟨h1, _⟩
  · exact hrepl u hl
  · rw [chunks_flatten] at h1
    exact hs u h1

theorem reSub_kills (pats : List String)
    (hp : ∀ p ∈ pats, p.data ≠ [] ∧ ∀ c ∈ p.data, isWordChar c = true)
    (repl s w : String)
    (hw : ∃ p ∈ pats, p.data.map Char.toLower = w.data.map Char.toLower)
    (hrepl : ∀ u ∈ runsBy isWordChar repl.data,
      u.map Char.toLower ≠ w.data.map Char.toLower) :
    NoWord w (reSub pats repl s).data := by
  intro u hu
  rw [reSub_wordPats_eq pats hp] at hu
  have hp2 : ∀ v ∈ pats.map String.data, v ≠ [] ∧ ∀ c ∈ v, isWordChar c = true := by
    intro v hv
    obtain ⟨p, hpm, hpe⟩ := List.mem_map.1 hv
    exact hpe ▸ hp p hpm
  rcases scGo_runs_single (pats.map String.data) hp2 repl.data (chunks s.data) none
      (chunks_ok _) u hu with hl | ⟨_, h2⟩
  · exact hrepl u hl
  · obtain ⟨p, hpm, hpe⟩ := hw
    intro heq
    exact h2 p.data (List.mem_map_of_mem _ hpm) (heq.trans hpe.symm)

theorem reSub_id (pats : List String)
    (hp : ∀ p ∈ pats, p.data ≠ [] ∧ ∀ c ∈ p.data, isWordChar c = true)
    (repl s : String)
    (hno : ∀ u ∈ runsBy isWordChar s.data, ∀ p ∈ pats,
      u.map Char.toLower ≠ p.data.map Char.toLower) :
    reSub pats repl s = s := by
  have hdata : (reSub pats repl s).data = s.data := by
    rw [reSub_wordPats_eq pats hp]
    have hp2 : ∀ v ∈ pats.map String.data, v ≠ [] ∧ ∀ c ∈ v, isWordChar c = true := by
      intro v hv
      obtain ⟨p, hpm, hpe⟩ := List.mem_map.1 hv
      exact hpe ▸ hp p hpm
    have hno2 : ∀ u ∈ runsBy isWordChar (chunks s.data).flatten,
        ∀ v ∈ pats.map String.data, u.map Char.toLower ≠ v.map Char.toLower := by
      rw [chunks_flatten]
      intro u hu v hv
      obtain ⟨p, hpm, hpe⟩ := List.mem_map.1 hv
      exact hpe ▸ hno u hu p hpm
    rw [scGo_id_single (pats.map String.data) hp2 repl.data (chunks s.data) none
      (chunks_ok _) hno2, chunks_flatten]
  calc reSub pats repl s = String.mk (reSub pats repl s).data := rfl
    _ = String.mk s.data := by rw [hdata]
    _ = s := rfl

theorem subAll_cons (p : String × String) (ps : List (String × String)) (s : String) :
    subAll (p :: ps) s = subAll ps (reSub [p.1] p.2 s) := rfl

theorem subAll_preserves (prs : List (String × String)) (w : String)
    (hk : ∀ p ∈ prs, p.1.data ≠ [] ∧ ∀ c ∈ p.1.data, isWordChar c = true)
    (hr : ∀ p ∈ prs, ∀ u ∈ runsBy isWordChar p.2.data,
      u.map Char.toLower ≠ w.data.map Char.toLower) :
    ∀ (s : String), NoWord w s.data → NoWord w (subAll prs s).data := by
  induction prs with
  | nil => intro s hs; exact hs
  | cons p ps ih =>
    intro s hs
    rw [subAll_cons]
    apply ih (fun q hq => hk q (by simp [hq])) (fun q hq => hr q (by simp [hq]))
    apply reSub_preserves [p.1] ?hsingle p.2 s w (hr p (by simp)) hs
    intro q hq
    simp only [List.mem_singleton] at hq
    subst hq
    exact hk p (by simp)

theorem subAll_id (prs : List (String × String))
    (hk : ∀ p ∈ prs, p.1.data ≠ [] ∧ ∀ c ∈ p.1.data, isWordChar c = true)
    (s : String)
    (hno : ∀ p ∈ prs, ∀ u ∈ runsBy isWordChar s.data,
      u.map Char.toLower ≠ p.1.data.map Char.toLower) :
    subAll prs s = s := by
  induction prs with
  | nil => rfl
  | cons p ps ih =>
    rw [subAll_cons]
    have hid : reSub [p.1] p.2 s = s := by
      apply reSub_id [p.1] ?hsingle p.2 s
      · intro u hu q hq
        simp only [List.mem_singleton] at hq
        subst hq
        exact hno p (by simp) u hu
      · intro q hq
        simp only [List.mem_singleton] at hq
        subst hq
        exact hk p (by simp)
    rw [hid]
    exact ih (fun q hq => hk q (by simp [hq])) (fun q hq => hno q (by simp [hq]))

/-! ### Strip, capitalize, split and join preserve word runs -/

theorem rstripL_spec : ∀ (l : List Char), ∃ t, l = rstripL l ++ t ∧ ∀ c ∈ t, isWS c = true := by
  intro l
  induction l with
  | nil => exact ⟨[], rfl, by simp⟩
  | cons c cs ih =>
    obtain ⟨t, ht, hws⟩ := ih
    by_cases h : ((rstripL cs).isEmpty && isWS c) = true
    · have h1 : rstripL cs = [] := by
        rcases Bool.and_eq_true_iff.1 h with ⟨he, _⟩
        exact List.isEmpty_iff.1 he
      have h2 : isWS c = true := (Bool.and_eq_true_iff.1 h).2
      refine ⟨c :: cs, ?_, ?_⟩
      · have : rstripL (c :: cs) = [] := by
          simp only [rstripL]
          rw [if_pos h]
        rw [this, List.nil_append]
      · intro d hd
        rcases List.mem_cons.1 hd with hd | hd
        · subst hd; exact h2
        · rw [h1, List.nil_append] at ht
          exact hws d (ht ▸ hd)
    · have hstep : rstripL (c :: cs) = c :: rstripL cs := by
        simp only [rstripL]
        rw [if_neg h]
      refine ⟨t, ?_, hws⟩
      rw [hstep, List.cons_append, ← ht]

theorem runsW_rstripL (l : List Char) :
    runsBy isWordChar (rstripL l) = runsBy isWordChar l := by
  obtain ⟨t, ht, hws⟩ := rstripL_spec l
  conv_rhs => rw [ht]
  rw [runsBy_append_all_neg _ _ t (fun c hc => isWS_not_word c (hws c hc))]

theorem runsW_stripL (l : List Char) :
    runsBy isWordChar (stripL l) = runsBy isWordChar l := by
  unfold stripL
  rw [runsW_rstripL]
  conv_rhs => rw [← List.takeWhile_append_dropWhile (p := fun c => isWS c) (l := l)]
  rw [runsBy_all_neg_append]
  intro c hc
  exact isWS_not_word c (List.mem_takeWhile_imp hc)

theorem map_toLower_toLower (l : List Char) :
    (l.map Char.toLower).map Char.toLower = l.map Char.toLower := by
  induction l with
  | nil => rfl
  | cons c cs ih => simp only [List.map_cons, ih, toLower_toLower]

theorem map_toLower_capitalizeL (l : List Char) :
    (capitalizeL l).map Char.toLower = l.map Char.toLower := by
  cases l with
  | nil => rfl
  | cons c cs =>
    simp only [capitalizeL, List.map_cons, toLower_toUpper, List.cons.injEq, true_and]
    exact map_toLower_toLower cs

theorem lowRuns_eq_of_mapLower_eq (x y : List Char)
    (h : x.map Char.toLower = y.map Char.toLower) :
    (runsBy isWordChar x).map (List.map Char.toLower)
      = (runsBy isWordChar y).map (List.map Char.toLower) := by
  rw [← runsBy_map isWordChar Char.toLower isWordChar_toLower x,
    ← runsBy_map isWordChar Char.toLower isWordChar_toLower y, h]

theorem noWord_of_lowEq (w : String) (x y : List Char)
    (h : x.map Char.toLower = y.map Char.toLower) (hx : NoWord w x) : NoWord w y := by
  intro u hu heq
  have hmem : (u.map Char.toLower) ∈ (runsBy isWordChar y).map (List.map Char.toLower) :=
    List.mem_map_of_mem _ hu
  rw [← lowRuns_eq_of_mapLower_eq x y h] at hmem
  obtain ⟨v, hv, hve⟩ := List.mem_map.1 hmem
  exact hx v hv (hve.trans heq)

theorem splitCSgo_decomp : ∀ (l : List Char),
    ((splitCSgo l).2 = [] ∧ (splitCSgo l).1 = l) ∨
    (∃ d r, isWordChar d = false ∧ l = (splitCSgo l).1 ++ d :: r ∧
      (splitCSgo l).2 = splitCS r ∧ r.length < l.length) := by
  intro l
  induction l with
  | nil => exact Or.inl ⟨rfl, rfl⟩
  | cons c cs ih =>
    by_cases hc : c = ',' ∨ c = ';'
    · right
      have hgo : splitCSgo (c :: cs) = ([], (splitCSgo cs).1 :: (splitCSgo cs).2) := by
        simp [splitCSgo, hc]
      refine ⟨c, cs, ?_, ?_, ?_, ?_⟩
      · rcases hc with h | h <;> subst h <;> decide
      · rw [hgo]
        rfl
      · rw [hgo]
        rfl
      · simp
    · have hgo : splitCSgo (c :: cs) = (c :: (splitCSgo cs).1, (splitCSgo cs).2) := by
        simp [splitCSgo, hc]
      rcases ih with ⟨h1, h2⟩ | ⟨d, r, hd, hl, h2, hlen⟩
      · left
        rw [hgo]
        exact ⟨h1, by rw [h2]⟩
      · right
        refine ⟨d, r, hd, ?_, ?_, ?_⟩
        · rw [hgo]
          simp only [List.cons_append]
          rw [← hl]
        · rw [hgo]
          exact h2
        · simp
          omega

theorem parts_noWord_aux : ∀ (n : Nat) (l : List Char), l.length ≤ n →
    ∀ part ∈ splitCS l, ∀ u ∈ runsBy isWordChar part, u ∈ runsBy isWordChar l := by
  intro n
  induction n with
  | zero =>
    intro l hl part hpart u hu
    have hnil : l = [] := List.length_eq_zero.1 (Nat.le_zero.1 hl)
    subst hnil
    simp [splitCS, splitCSgo] at hpart
    subst hpart
    simp [runsBy, runsGo] at hu
  | succ n ih =>
    intro l hl part hpart u hu
    rcases splitCSgo_decomp l with ⟨h1, h2⟩ | ⟨d, r, hd, hdecomp, h2, hlen⟩
    · have heqp : splitCS l = [l] := by
        unfold splitCS
        rw [h1, h2]
      rw [heqp] at hpart
      simp at hpart
      subst hpart
      exact hu
    · have hsplit : splitCS l = (splitCSgo l).1 :: splitCS r := by
        unfold splitCS
        rw [h2]
        rfl
      have hruns : runsBy isWordChar l
          = runsBy isWordChar (splitCSgo l).1 ++ runsBy isWordChar r := by
        conv_lhs => rw [hdecomp]
        exact runsBy_glue _ d hd _ _
      rw [hsplit] at hpart
      rcases List.mem_cons.1 hpart with hp | hp
      · subst hp
        rw [hruns]
        exact List.mem_append_left _ hu
      · have hmem : u ∈ runsBy isWordChar r := ih r (by omega) part hp u hu
        rw [hruns]
        exact List.mem_append_right _ hmem

theorem parts_noWord (l : List Char) (part : List Char) (hpart : part ∈ splitCS l) :
    ∀ u ∈ runsBy isWordChar part, u ∈ runsBy isWordChar l :=
  parts_noWord_aux l.length l le_rfl part hpart

theorem joinSep_runs_mem (d : Char) (sd : List Char)
    (hall : ∀ c ∈ d :: sd, isWordChar c = false) :
    ∀ (ps : List (List Char)) (u : List Char),
      u ∈ runsBy isWordChar (joinSep (d :: sd) ps) →
      ∃ p ∈ ps, u ∈ runsBy isWordChar p := by
  intro ps
  induction ps with
  | nil =>
    intro u hu
    simp [joinSep, runsBy, runsGo] at hu
  | cons x xs ih =>
    intro u hu
    cases xs with
    | nil =>
      refine ⟨x, by simp, ?_⟩
      simpa [joinSep] using hu
    | cons y ys =>
      have hjoin : joinSep (d :: sd) (x :: y :: ys)
          = x ++ d :: (sd ++ joinSep (d :: sd) (y :: ys)) := by
        show x ++ (d :: sd) ++ joinSep (d :: sd) (y :: ys) = _
        simp
      rw [hjoin, runsBy_glue _ d (hall d (by simp))] at hu
      rw [runsBy_all_neg_append _ sd _ (fun c hc => hall c (by simp [hc]))] at hu
      rcases List.mem_append.1 hu with h | h
      · exact ⟨x, by simp, h⟩
      · obtain ⟨p, hp, hup⟩ := ih u h
        exact ⟨p, by simp [hp], hup⟩

theorem noWord_stripL (w : String) (l : List Char) (h : NoWord w l) :
    NoWord w (stripL l) := by
  intro u hu
  rw [runsW_stripL] at hu
  exact h u hu

theorem noWord_split_long (w s : String) (hs : NoWord w s.data) :
    NoWord w (split_long_sentences s).data := by
  unfold split_long_sentences
  by_cases h1 : 20 < wordCountL s.data
  · simp only [h1, if_true]
    by_cases h2 : 1 < (splitCS s.data).length
    · simp only [h2, if_true]
      intro u hu
      obtain ⟨q, hq, huq⟩ := joinSep_runs_mem '.' [' '] (by decide) _ u hu
      obtain ⟨p, hp, hpe⟩ := List.mem_map.1 hq
      have hsp : NoWord w p := fun v hv hve => hs v (parts_noWord s.data p hp v hv) hve
      have hst : NoWord w (stripL p) := noWord_stripL w p hsp
      have hcap : NoWord w (capitalizeL (stripL p)) :=
        noWord_of_lowEq w (stripL p) _ (map_toLower_capitalizeL _).symm hst
      subst hpe
      exact hcap u huq
    · simp only [h2, if_false]
      exact hs
  · simp only [h1, if_false]
    exact hs

theorem data_mk (l : List Char) : (String.mk l).data = l := rfl

theorem noWord_empty_repl (w : String) :
    ∀ u ∈ runsBy isWordChar ("" : String).data,
      u.map Char.toLower ≠ w.data.map Char.toLower := by
  intro u hu
  simp [runsBy, runsGo] at hu

/-- The words removed (not replaced) by `compress_max`, in the order of
its three `re.sub` calls. -/
def auxRemoved : List String :=
  ["is", "are", "am", "was", "were", "has", "have", "had", "that", "which", "who"]

theorem noWord_compress_max (w s : String)
    (hw : (∃ p ∈ (["is", "are", "am", "was", "were"] : List String),
            p.data.map Char.toLower = w.data.map Char.toLower)
        ∨ (∃ p ∈ (["has", "have", "had"] : List String),
            p.data.map Char.toLower = w.data.map Char.toLower)
        ∨ (∃ p ∈ (["that", "which", "who"] : List String),
            p.data.map Char.toLower = w.data.map Char.toLower)) :
    NoWord w (compress_max s).data := by
  have hG1 : ∀ p ∈ (["is", "are", "am", "was", "were"] : List String),
      p.data ≠ [] ∧ ∀ c ∈ p.data, isWordChar c = true := by decide
  have hG2 : ∀ p ∈ (["has", "have", "had"] : List String),
      p.data ≠ [] ∧ ∀ c ∈ p.data, isWordChar c = true := by decide
  have hG3 : ∀ p ∈ (["that", "which", "who"] : List String),
      p.data ≠ [] ∧ ∀ c ∈ p.data, isWordChar c = true := by decide
  have h3 : NoWord w (reSub ["that", "which", "who"] ""
      (reSub ["has", "have", "had"] ""
        (reSub ["is", "are", "am", "was", "were"] "" s))).data := by
    rcases hw with h | h | h
    · have h1 := reSub_kills _ hG1 "" s w h (noWord_empty_repl w)
      have h2 := reSub_preserves _ hG2 "" _ w (noWord_empty_repl w) h1
      exact reSub_preserves _ hG3 "" _ w (noWord_empty_repl w) h2
    · have h2 := reSub_kills _ hG2 ""
        (reSub ["is", "are", "am", "was", "were"] "" s) w h (noWord_empty_repl w)
      exact reSub_preserves _ hG3 "" _ w (noWord_empty_repl w) h2
    · exact reSub_kills _ hG3 ""
        (reSub ["has", "have", "had"] ""
          (reSub ["is", "are", "am", "was", "were"] "" s)) w h (noWord_empty_repl w)
  intro u hu
  have hcm : (compress_max s).data
      = stripL (reSub ["that", "which", "who"] ""
          (reSub ["has", "have", "had"] ""
            (reSub ["is", "are", "am", "was", "were"] "" s))).data := rfl
  rw [hcm, runsW_stripL] at hu
  exact h3 u hu

theorem noWord_after_post (w : String)
    (hdig : ∀ p ∈ defaultConfig.number_mapping, ∀ u ∈ runsBy isWordChar p.2.data,
      u.map Char.toLower ≠ w.data.map Char.toLower)
    (x : String) (hx : NoWord w x.data) :
    NoWord w (String.mk (stripL
      (convert_numbers defaultConfig (split_long_sentences x)).data)).data := by
  have h1 := noWord_split_long w x hx
  have h2 : NoWord w (convert_numbers defaultConfig (split_long_sentences x)).data :=
    subAll_preserves _ w (by decide) hdig _ h1
  intro u hu
  rw [data_mk, runsW_stripL] at hu
  exact h2 u hu

theorem runPipeline4_tail (cfg : Config) (s : String) :
    ∃ t : String, runPipeline cfg 4 s
      = String.mk (stripL
          (convert_numbers cfg (split_long_sentences (compress_max t))).data) :=
  ⟨_, rfl⟩

/-! ### Claim theorems -/

/-- C1: the claim says the level-1 result is derived from the
stop-word-filtered, synonym-replaced token sequence, so no stop word
survives whole-word in the level-1 output.  The code computes those
tokens but never rebuilds `sentence` from them at level 1 (the rejoin
happens only in the `level >= 2` branch), so the level-1 output is the
original sentence: on "the cat" the stop word "the" survives. -/
theorem c1_level1_keeps_stop_words :
    runPipeline defaultConfig 1 "the cat" = "the cat"
    ∧ containsWordCI "the" (runPipeline defaultConfig 1 "the cat") = true
    ∧ "the" ∈ defaultConfig.stop_words := by decide

/-- C2 counterexample: a 21-word sentence whose only comma is trailing
has exactly one non-empty part, yet the splitter modifies it, because
the code tests `len(parts) > 1` counting empty parts. -/
theorem c2_counterexample :
    wordCountL ("a b c d e f g h i j k l m n o p q r s t u," : String).data = 21
    ∧ ((splitCS ("a b c d e f g h i j k l m n o p q r s t u," : String).data).filter
        (fun p => !p.isEmpty)).length = 1
    ∧ split_long_sentences "a b c d e f g h i j k l m n o p q r s t u,"
        ≠ "a b c d e f g h i j k l m n o p q r s t u," := by decide

/-- C2 (amended): the splitter modifies its input only when the
whitespace word count exceeds 20 AND splitting on commas/semicolons
yields more than one part, counting empty parts; otherwise the string
is returned unchanged. -/
theorem c2_splitter_unchanged (s : String)
    (h : ¬ (20 < wordCountL s.data ∧ 1 < (splitCS s.data).length)) :
    split_long_sentences s = s := by
  simp only [split_long_sentences]
  by_cases h1 : 20 < wordCountL s.data
  · by_cases h2 : 1 < (splitCS s.data).length
    · exact absurd ⟨h1, h2⟩ h
    · rw [if_pos h1, if_neg h2]
  · rw [if_neg h1]

theorem c2_witness :
    ¬ (20 < wordCountL ("cat" : String).data
        ∧ 1 < (splitCS ("cat" : String).data).length)
    ∧ split_long_sentences "cat" = "cat" :=
  ⟨by decide, c2_splitter_unchanged "cat" (by decide)⟩

/-- A level table with different keys, showing that the failure message
is computed from the current table rather than hardcoded. -/
def shiftedConfig : Config :=
  { defaultConfig with compression_levels := [(2, "a"), (3, "b"), (5, "c"), (7, "d")] }

/-- C3: `set_level n` succeeds (and stores `n`, leaving the tables
unchanged) iff `n` is a key of the configured level table, which for the
default table is {1,2,3,4}; otherwise the state is unchanged and the
`InvalidLevel` message states the inclusive range computed from the
current minimum and maximum keys (so a different table yields a
different message). -/
theorem c3_set_level_spec :
    (∀ (sim : Simplifier) (n : Int),
      ((set_level sim n).2 = none ↔ n ∈ levelKeys sim.config)
      ∧ (n ∈ levelKeys sim.config →
          set_level sim n = ({ sim with level := n }, none))
      ∧ (n ∉ levelKeys sim.config →
          set_level sim n = (sim, some (invalidLevelMsg sim.config))))
    ∧ levelKeys defaultConfig = [1, 2, 3, 4]
    ∧ invalidLevelMsg defaultConfig = "Invalid level. Choose between 1 and 4."
    ∧ invalidLevelMsg shiftedConfig = "Invalid level. Choose between 2 and 7." := by
  refine ⟨?_, by decide, by decide, by decide⟩
  intro sim n
  by_cases hm : n ∈ levelKeys sim.config
  · exact ⟨by simp [set_level, hm], fun _ => by simp [set_level, hm],
      fun h => absurd hm h⟩
  · exact ⟨by simp [set_level, hm], fun h => absurd h hm,
      fun _ => by simp [set_level, hm]⟩

theorem c3_witness :
    set_level { config := defaultConfig, level := 1 } 9
      = ({ config := defaultConfig, level := 1 },
          some "Invalid level. Choose between 1 and 4.") := by
  have h := (c3_set_level_spec.1 { config := defaultConfig, level := 1 } 9).2.2 (by decide)
  rw [h, c3_set_level_spec.2.2.1]

/-- The splitter as C4 literally states it: each part trimmed, only its
first character converted to upper case and all other characters left
unchanged, rejoined with ". ". -/
def capFirstOnly : List Char → List Char
  | [] => []
  | c :: cs => Char.toUpper c :: cs

/-- The result C4 claims for a triggered split. -/
def claimSplitC4 (s : String) : String :=
  String.mk (joinSep ['.', ' '] ((splitCS s.data).map (fun p => capFirstOnly (stripL p))))

/-- C4 counterexample: on a triggered input containing "AA", the code's
`str.capitalize` lower-cases the remaining characters ("Aa ..."), so the
output is not the claimed parts-with-first-character-upper-cased. -/
theorem c4_counterexample :
    20 < wordCountL ("AA b c d e f g h i j k, l m n o p q r s t u v" : String).data
    ∧ 1 < (splitCS ("AA b c d e f g h i j k, l m n o p q r s t u v" : String).data).length
    ∧ split_long_sentences "AA b c d e f g h i j k, l m n o p q r s t u v"
        = "Aa b c d e f g h i j k. L m n o p q r s t u v"
    ∧ split_long_sentences "AA b c d e f g h i j k, l m n o p q r s t u v"
        ≠ claimSplitC4 "AA b c d e f g h i j k, l m n o p q r s t u v" := by decide

/-- C4 (amended): when the splitter triggers, the result equals the
parts each trimmed and `capitalize`d (first character upper-cased, all
remaining characters lower-cased), rejoined with ". ". -/
theorem c4_split_formula (s : String)
    (h1 : 20 < wordCountL s.data) (h2 : 1 < (splitCS s.data).length) :
    split_long_sentences s
      = String.mk (joinSep ['.', ' ']
          ((splitCS s.data).map (fun p => capitalizeL (stripL p)))) := by
  simp only [split_long_sentences]
  rw [if_pos h1, if_pos h2]

theorem c4_witness :
    split_long_sentences "AA b c d e f g h i j k, l m n o p q r s t u v"
      = String.mk (joinSep ['.', ' ']
          ((splitCS ("AA b c d e f g h i j k, l m n o p q r s t u v" : String).data).map
            (fun p => capitalizeL (stripL p)))) :=
  c4_split_formula "AA b c d e f g h i j k, l m n o p q r s t u v" (by decide) (by decide)

/-- C5: at level exactly 4, the returned string contains no
case-insensitive whole-word occurrence of any of the auxiliary/linking
verbs {is, are, am, was, were}, the verbs {has, have, had} or the
relative pronouns {that, which, who}; at lower levels this removal does
not run (at level 3 the word "was" survives). -/
theorem c5_level4_strips_auxiliaries :
    (∀ (s w : String), w ∈ auxRemoved →
      containsWordCI w (runPipeline defaultConfig 4 s) = false)
    ∧ containsWordCI "was" (runPipeline defaultConfig 3 "he was tall") = true := by
  constructor
  · intro s w hw
    obtain ⟨t, ht⟩ := runPipeline4_tail defaultConfig s
    rw [ht]
    apply containsWordCI_false_of_noWord
    fin_cases hw <;>
      exact noWord_after_post _ (by decide) (compress_max t)
        (noWord_compress_max _ t (by decide))
  · decide

theorem c5_witness :
    "was" ∈ auxRemoved
    ∧ containsWordCI "was" (runPipeline defaultConfig 4 "he was tall") = false :=
  ⟨by decide, c5_level4_strips_auxiliaries.1 "he was tall" "was" (by decide)⟩

/-- C6: the number-converter replaces each spelled number word
independently, with no combination logic: "I have one hundred dogs"
becomes "I have 1 100 dogs", not "I have 100 dogs". -/
theorem c6_numbers_independent :
    convert_numbers defaultConfig "I have one hundred dogs" = "I have 1 100 dogs"
    ∧ convert_numbers defaultConfig "I have one hundred dogs" ≠ "I have 100 dogs" := by
  decide

/-- C7: the number-converter pass is idempotent once complete: if a
string contains no case-insensitive whole-word occurrence of any
spelled number word of the table, the pass returns it unchanged. -/
theorem c7_convert_numbers_idempotent (s : String)
    (h : ∀ p ∈ defaultConfig.number_mapping, containsWordCI p.1 s = false) :
    convert_numbers defaultConfig s = s := by
  apply subAll_id
  · decide
  · intro p hp u hu heq
    exact noWord_of_containsWordCI_false p.1 s (h p hp) u hu heq

theorem c7_witness :
    (∀ p ∈ defaultConfig.number_mapping, containsWordCI p.1 "I have 100 dogs" = false)
    ∧ convert_numbers defaultConfig "I have 100 dogs" = "I have 100 dogs" :=
  ⟨by decide, c7_convert_numbers_idempotent "I have 100 dogs" (by decide)⟩

/-- C8: `tokenize` is total, lowercases the input and returns exactly
the maximal word-character runs in order: every token is a nonempty
all-word-character string, flattening the tokens recovers precisely the
word characters of the lowercased input, and empty or punctuation-only
input yields the empty sequence. -/
theorem c8_tokenize_spec :
    tokenize "" = []
    ∧ (∀ s : String, (∀ c ∈ s.data, isWordChar c = false) → tokenize s = [])
    ∧ (∀ (s t : String), t ∈ tokenize s →
        t.data ≠ [] ∧ ∀ c ∈ t.data, isWordChar c = true)
    ∧ (∀ s : String, ((tokenize s).map String.data).flatten
        = (s.data.map Char.toLower).filter isWordChar)
    ∧ tokenize "Hello, World_42!" = ["hello", "world_42"] := by
  refine ⟨rfl, ?_, ?_, ?_, by decide⟩
  · intro s h
    unfold tokenize
    have hall : ∀ c ∈ s.data.map Char.toLower, isWordChar c = false := by
      intro c hc
      obtain ⟨d, hd, hde⟩ := List.mem_map.1 hc
      rw [← hde, isWordChar_toLower]
      exact h d hd
    rw [runsBy_all_neg isWordChar _ hall]
    rfl
  · intro s t ht
    unfold tokenize at ht
    obtain ⟨u, hu, hue⟩ := List.mem_map.1 ht
    obtain ⟨h1, h2⟩ := runsBy_sound isWordChar _ u hu
    subst hue
    refine ⟨by simpa [data_mk] using h1, ?_⟩
    intro c hc
    exact (h2 c (by simpa [data_mk] using hc)).1
  · intro s
    unfold tokenize
    rw [List.map_map]
    have hcomp : (String.data ∘ String.mk) = id := funext data_mk
    rw [hcomp, List.map_id]
    exact runsBy_join _ _

theorem c8_witness :
    (∀ c ∈ ("?!. ," : String).data, isWordChar c = false)
    ∧ tokenize "?!. ," = []
    ∧ "hello" ∈ tokenize "Hello, World_42!"
    ∧ ("hello" : String).data ≠ [] :=
  ⟨by decide, c8_tokenize_spec.2.1 "?!. ," (by decide), by decide,
    (c8_tokenize_spec.2.2.1 "Hello, World_42!" "hello" (by decide)).1⟩

/-- C9: `batch_simplify` returns a same-length sequence whose i-th
element is `simplify_sentence` of the i-th input at the instance's
current level; the instance (level and rule tables) is not modified —
in this embedding all methods are pure functions of the instance. -/
theorem c9_batch_map :
    ∀ (sim : Simplifier) (ss : List String),
      (batch_simplify sim ss).length = ss.length
      ∧ ∀ i : Nat, (batch_simplify sim ss)[i]?
          = (ss[i]?).map (simplify_sentence sim) := by
  intro sim ss
  refine ⟨List.length_map _ _, ?_⟩
  intro i
  unfold batch_simplify
  exact List.getElem?_map _ _ _

/-- C10: level-4 word removal deletes only the matched word without
collapsing the surrounding whitespace, and the final trim is only at
the ends: "he was tall" at level 4 yields "he  tall", which contains
two consecutive interior spaces. -/
theorem c10_interior_double_space :
    runPipeline defaultConfig 4 "he was tall" = "he  tall"
    ∧ [' ', ' '] <:+: (runPipeline defaultConfig 4 "he was tall").data := by decide

end LLMTC
